import Mathlib

/-!
Verification development for the HF average-bond-length notebook
(`HF_AverageBondLengthCalculations_preCodeRemoval.ipynb`).

The notebook is a linear numerical script: it fits a cubic interpolating
spline to 24 quantum-chemistry energy samples of the HF molecule, derives
the equilibrium geometry and harmonic force constant from the fitted
surface, runs a Langevin-dynamics trajectory with the BBK integrator, and
runs an independent Metropolis Monte-Carlo acceptance loop on the same
energy surface.  Floating point numbers are modelled by real numbers,
and every random draw of the script (`np.random.normal`,
`np.random.uniform`) is modelled as an explicit input stream, so all
definitions below are deterministic functions of their inputs.
-/

noncomputable section

/-- Bond-length samples in Angstroms (`r_array` in cell 1). -/
def r_array : List ℝ :=
  [0.5, 0.55, 0.6, 0.65, 0.7, 0.75, 0.8, 0.85, 0.9, 0.95, 1.0, 1.1, 1.2,
   1.3, 1.4, 1.5, 1.6, 1.7, 1.8, 1.9, 2.0, 2.1, 2.2, 2.3]

/-- Energy samples in Hartrees (`E_array` in cell 1). -/
def E_array : List ℝ :=
  [-99.65145319155353, -99.8994262443721, -100.06621001317194,
   -100.17756325854646, -100.25063259195414, -100.2970313588523,
   -100.32474168482375, -100.33931605978479, -100.34465565789081,
   -100.34352787324143, -100.33791544225228, -100.31857920174716,
   -100.29403975969775, -100.26820624042988, -100.24311492569184,
   -100.21980547092805, -100.19879112534593, -100.18029259214076,
   -100.16434868570335, -100.15087255990257, -100.13968771534014,
   -100.13055798203477, -100.12321514624568, -100.11738316835266]

/-- Consecutive differences of a list (used for knot spacings and data
differences in the spline model). -/
def diffs : List ℝ → List ℝ
  | a :: b :: t => (b - a) :: diffs (b :: t)
  | _ => []

/-- Consecutive slopes `(y_{i+1} - y_i) / (x_{i+1} - x_i)` of the data. -/
def slopes (x y : List ℝ) : List ℝ :=
  List.zipWith (fun dy dx => dy / dx) (diffs y) (diffs x)

/-- Right-hand side of the spline moment system: six times the consecutive
differences of the slopes.  It depends on the data `y` only through
consecutive differences. -/
def secondDiffs (x y : List ℝ) : List ℝ :=
  (diffs (slopes x y)).map (fun u => 6 * u)

/-- Thomas-algorithm solver for a tridiagonal system, auxiliary form: the
current (already eliminated) diagonal entry and right-hand side are carried
as explicit arguments so that the recursion is structural. -/
def triSolveAux : ℝ → ℝ → List ℝ → List ℝ → List ℝ → List ℝ → List ℝ
  | bcur, dcur, [], _, _, _ => [dcur / bcur]
  | bcur, dcur, b :: bs, c :: cs, aa :: as2, d :: ds =>
      let m := aa / bcur
      let tail := triSolveAux (b - m * c) (d - m * dcur) bs cs as2 ds
      (dcur - c * tail.headD 0) / bcur :: tail
  | bcur, dcur, _ :: _, _, _, _ => [dcur / bcur]

/-- Thomas-algorithm solver for a tridiagonal system with diagonal `b`,
superdiagonal `c`, subdiagonal `a` and right-hand side `d`. -/
def triSolve (b c a d : List ℝ) : List ℝ :=
  match b, d with
  | b0 :: bs, d0 :: ds => triSolveAux b0 d0 bs c a ds
  | _, _ => []

/-- Second-derivative values (moments) of the natural cubic interpolating
spline at the knots `x` for data `y`: zero at the two boundary knots and
the solution of the standard tridiagonal moment system at the interior
knots.  The data `y` enters only through `secondDiffs`. -/
def moments (x y : List ℝ) : List ℝ :=
  let h := diffs x
  let dia := List.zipWith (fun u v => 2 * (u + v)) h h.tail
  let upper := h.tail
  let lower := h.dropLast
  0 :: triSolve dia upper lower (secondDiffs x y) ++ [0]

/-- Number of knots that are at most `t` (used to locate the spline
segment containing the evaluation point). -/
def countLE (x : List ℝ) (t : ℝ) : ℕ :=
  match x with
  | [] => 0
  | a :: rest => (if a ≤ t then 1 else 0) + countLE rest t

/-- Index of the spline segment used at evaluation point `t`: the last
knot at or below `t`, clamped to the valid segment range `[0, n-2]`. -/
def segIdx (x : List ℝ) (t : ℝ) : ℕ :=
  min (countLE x t - 1) (x.length - 2)

/-- Model of the cubic interpolating spline produced by
`scipy.interpolate.InterpolatedUnivariateSpline(x, y, k=3)`: the natural
cubic spline through the points `(x_i, y_i)`, written on segment `i` in
the form `y_i + b_i s + (m_i / 2) s^2 + ((m_{i+1} - m_i)/(6 h_i)) s^3`
with `s = t - x_i` and `h_i = x_{i+1} - x_i`.  The claims proved below
use only the affine dependence of this value on the data `y` and the
endpoint-interpolation form of the evaluation, which are shared by every
interpolating cubic spline. -/
def splineEval (x y : List ℝ) (t : ℝ) : ℝ :=
  let i := segIdx x t
  let xi := x.getD i 0
  let xi1 := x.getD (i + 1) 0
  let h := xi1 - xi
  let yi := y.getD i 0
  let yi1 := y.getD (i + 1) 0
  let m := moments x y
  let mi := m.getD i 0
  let mi1 := m.getD (i + 1) 0
  let b := (yi1 - yi) / h - h * (2 * mi + mi1) / 6
  let s := t - xi
  yi + b * s + (mi / 2) * s ^ 2 + ((mi1 - mi) / (6 * h)) * s ^ 3

/-- First derivative of the spline model (`E_spline.derivative()` in the
notebook): the segmentwise derivative of `splineEval`. -/
def splineEvalD1 (x y : List ℝ) (t : ℝ) : ℝ :=
  let i := segIdx x t
  let xi := x.getD i 0
  let xi1 := x.getD (i + 1) 0
  let h := xi1 - xi
  let yi := y.getD i 0
  let yi1 := y.getD (i + 1) 0
  let m := moments x y
  let mi := m.getD i 0
  let mi1 := m.getD (i + 1) 0
  let b := (yi1 - yi) / h - h * (2 * mi + mi1) / 6
  let s := t - xi
  b + mi * s + (mi1 - mi) / (2 * h) * s ^ 2

/-- Second derivative of the spline model (`fE.derivative()` in the
notebook): the segmentwise second derivative of `splineEval`. -/
def splineEvalD2 (x y : List ℝ) (t : ℝ) : ℝ :=
  let i := segIdx x t
  let xi := x.getD i 0
  let xi1 := x.getD (i + 1) 0
  let h := xi1 - xi
  let m := moments x y
  let mi := m.getD i 0
  let mi1 := m.getD (i + 1) 0
  let s := t - xi
  mi + (mi1 - mi) / h * s

/-- Bond lengths converted to atomic units (`r_array_au` in cell 3). -/
def r_array_au : List ℝ := r_array.map (fun r => r * 1.89)

/-- The fitted potential energy surface
(`E_spline = InterpolatedUnivariateSpline(r_array_au, E_array, k=3)`). -/
def E_spline (t : ℝ) : ℝ := splineEval r_array_au E_array t

/-- Model of `np.linspace a b n`: `n` equally spaced points from `a` to
`b` inclusive. -/
def linspace (a b : ℝ) (n : ℕ) : List ℝ :=
  (List.range n).map (fun i : ℕ => a + (b - a) * i / (n - 1))

/-- The fine evaluation grid (`r_fine = np.linspace(0.5*1.89, 2.3*1.89, 200)`). -/
def r_fine : List ℝ := linspace (0.5 * 1.89) (2.3 * 1.89) 200

/-- Interpolated energies on the fine grid (`E_fine = E_spline(r_fine)`). -/
def E_fine : List ℝ := r_fine.map E_spline

/-- Model of `np.argmin`: index of the first occurrence of the least
element of the list (`0` on the empty list). -/
def argminIdx {α : Type} [LinearOrder α] : List α → ℕ
  | [] => 0
  | [_] => 0
  | a :: b :: t =>
      let j := argminIdx (b :: t)
      if a ≤ (b :: t).getD j b then 0 else j + 1

/-- Derivative of the energy spline (`fE = E_spline.derivative()`). -/
def fE (t : ℝ) : ℝ := splineEvalD1 r_array_au E_array t

/-- Second derivative of the energy spline (`cE = fE.derivative()`). -/
def cE (t : ℝ) : ℝ := splineEvalD2 r_array_au E_array t

/-- Index of the minimum interpolated energy (`Req_idx = np.argmin(E_fine)`). -/
def Req_idx : ℕ := argminIdx E_fine

/-- Equilibrium bond length (`r_eq = r_fine[Req_idx]`). -/
def r_eq : ℝ := r_fine.getD Req_idx 0

/-- Mass of hydrogen in atomic units. -/
def mH : ℝ := 1836

/-- Mass of fluorine in atomic units. -/
def mF : ℝ := 34883

/-- Reduced mass of HF in atomic units (`mu = mH*mF/(mH+mF)`). -/
def mu : ℝ := mH * mF / (mH + mF)

/-- Harmonic force constant: second derivative of the energy spline at the
equilibrium bond length (`k = cE(r_eq)`). -/
def k : ℝ := cE r_eq

/-- Integration time step in atomic units (`dt = 0.02`). -/
def dt : ℝ := 0.02

/-- Temperature in atomic units (`temperature = 0.00094`). -/
def temperature : ℝ := 0.00094

/-- Langevin drag coefficient (`gamma = 0.005`). -/
def gamma : ℝ := 0.005

/-- The BBK update of cell 9.  `r_curr`, `v_curr`, `rp_curr` are the
current position, velocity and random force perturbation; `f_interp` is
the derivative of the energy spline (so the force is `-f_interp r`).  The
freshly drawn future perturbation (`np.sqrt(2*T*gamma*mu/dt) *
np.random.normal(0,1)` in the source) is supplied as the input `rp_fut`.
Returns the list `[r_fut, v_fut, rp_fut]` exactly as the source does. -/
def BBK (r_curr v_curr rp_curr gamma_val temperature_val mu_val : ℝ)
    (f_interp : ℝ → ℝ) (dt_val rp_fut : ℝ) : List ℝ :=
  let a_curr := (-1 * f_interp r_curr + rp_curr) / mu_val - gamma_val * v_curr
  let r_fut := r_curr + v_curr * dt_val + 0.5 * a_curr * dt_val ^ 2
  let a_fut := (-1 * f_interp r_fut + rp_fut) / mu_val
  let v_fut := (v_curr + 0.5 * (a_curr + a_fut) * dt_val) / (1 + 0.5 * gamma_val * dt_val)
  [r_fut, v_fut, rp_fut]

/-- Number of integration steps (`N_updates = 200000`). -/
def N_updates : ℕ := 200000

/-- One BBK call as made by the trajectory loop of cell 11: the state is
the list `[r, v, rp]` returned by the previous call, and the loop passes
the program constants `gamma`, `temperature`, `mu`, `dt` together with the
spline derivative `f`. -/
def bbkStep (f : ℝ → ℝ) (noise_k : ℝ) (s : List ℝ) : List ℝ :=
  BBK (s.getD 0 0) (s.getD 1 0) (s.getD 2 0) gamma temperature mu f dt noise_k

/-- The value of `result_array` after the pre-loop BBK call (`resultSeq f
r0 v0 rp0 noise 0`) and after each loop iteration `i ≥ 1` (`resultSeq … i`):
cell 11 performs one BBK call before the loop and one more per iteration. -/
def resultSeq (f : ℝ → ℝ) (r0 v0 rp0 : ℝ) (noise : ℕ → ℝ) : ℕ → List ℝ
  | 0 => bbkStep f (noise 0) [r0, v0, rp0]
  | i + 1 => bbkStep f (noise (i + 1)) (resultSeq f r0 v0 rp0 noise i)

/-- `k`-fold application of the BBK update to the initial state
`[r0, v0, rp0]`, consuming one fresh perturbation per application. -/
def bbkIterate (f : ℝ → ℝ) (r0 v0 rp0 : ℝ) (noise : ℕ → ℝ) : ℕ → List ℝ
  | 0 => [r0, v0, rp0]
  | i + 1 => bbkStep f (noise i) (bbkIterate f r0 v0 rp0 noise i)

/-- The recorded position trajectory of cell 11: index 0 holds the initial
position, and index `i ≥ 1` holds the position component of
`result_array` after loop iteration `i`. -/
def r_vs_t (f : ℝ → ℝ) (r0 v0 rp0 : ℝ) (noise : ℕ → ℝ) (i : ℕ) : ℝ :=
  if i = 0 then r0 else (resultSeq f r0 v0 rp0 noise i).getD 0 0

/-- The recorded velocity trajectory of cell 11. -/
def v_vs_t (f : ℝ → ℝ) (r0 v0 rp0 : ℝ) (noise : ℕ → ℝ) (i : ℕ) : ℝ :=
  if i = 0 then v0 else (resultSeq f r0 v0 rp0 noise i).getD 1 0

/-- The recorded time array of cell 11: initialised to zeros, and set to
`dt * i` at every loop iteration `i ≥ 1`. -/
def t_array (i : ℕ) : ℝ :=
  if i = 0 then 0 else dt * i

/-- State of the Metropolis Monte-Carlo loop of cell 12: the position
`r_prev` from which proposals are generated, the count of accepted
proposals, and the array of accepted positions. -/
structure MCState where
  r_prev : ℝ
  num_accepted : ℕ
  accepted : List ℝ

/-- The acceptance probability of cell 12
(`p = np.exp(-Esh(r_trial)/T)/np.exp(-Esh(r_prev)/T)`). -/
def mcP (Esh : ℝ → ℝ) (T rt rp : ℝ) : ℝ :=
  Real.exp (-Esh rt / T) / Real.exp (-Esh rp / T)

/-- The shifted spline of cell 12
(`E_spline_shifted = InterpolatedUnivariateSpline(r_array_au, np.add(E_array,100), k=3)`). -/
def E_spline_shifted (t : ℝ) : ℝ :=
  splineEval r_array_au (E_array.map (fun e => e + 100)) t

/-- One iteration of the Metropolis Monte-Carlo loop of cell 12:
a trial position is proposed by perturbing `r_prev` with the normal draw
`nrm`; it is accepted when the uniform draw `unif` is below the Boltzmann
ratio `p`.  When accepted, the trial is stored at index `num_accepted` of
the accepted array and the counter is incremented.  Note that the source
never reassigns `r_prev`, and this embedding faithfully keeps `r_prev`
unchanged in both branches. -/
def mcStep (Esh : ℝ → ℝ) (T nrm unif : ℝ) (s : MCState) : MCState :=
  let r_trial := s.r_prev + nrm
  let p := mcP Esh T r_trial s.r_prev
  if unif < p then
    ⟨s.r_prev, s.num_accepted + 1, s.accepted.set s.num_accepted r_trial⟩
  else s

/-- State of the Monte-Carlo loop after `i` iterations, starting from
`r_prev = r_init`, zero accepted samples and a zero array of length
`N_updates` (`r_accepted_array = np.zeros(N_updates)`). -/
def mcRun (Esh : ℝ → ℝ) (T : ℝ) (normals uniforms : ℕ → ℝ) (r0 : ℝ) : ℕ → MCState
  | 0 => ⟨r0, 0, List.replicate N_updates 0⟩
  | i + 1 => mcStep Esh T (normals i) (uniforms i) (mcRun Esh T normals uniforms r0 i)

/-- The list of trial positions accepted during the first `i` iterations
of the Monte-Carlo loop, in order of acceptance. -/
def acceptedTrials (Esh : ℝ → ℝ) (T : ℝ) (normals uniforms : ℕ → ℝ) (r0 : ℝ) : ℕ → List ℝ
  | 0 => []
  | i + 1 =>
      let s := mcRun Esh T normals uniforms r0 i
      let r_trial := s.r_prev + normals i
      if uniforms i < mcP Esh T r_trial s.r_prev then
        acceptedTrials Esh T normals uniforms r0 i ++ [r_trial]
      else
        acceptedTrials Esh T normals uniforms r0 i

/-- The final Monte-Carlo mean bond length
(`r_av_mc = np.mean(r_accepted_array[0:num_accepted_r])`), with
`np.mean` modelled as sum divided by length. -/
def r_av_mc (normals uniforms : ℕ → ℝ) (r0 : ℝ) : ℝ :=
  let s := mcRun E_spline_shifted temperature normals uniforms r0 N_updates
  (s.accepted.take s.num_accepted).sum / (s.accepted.take s.num_accepted).length

end

/-- C2: the BBK function returns exactly the triple `[r1, v1, rp_fut]`
with `a = (F r + rp)/mu - gamma*v`, `r1 = r + v dt + a dt^2 / 2`,
`a1 = (F r1 + rp_fut)/mu` and `v1 = (v + (a + a1) dt / 2)/(1 + gamma dt / 2)`,
where `F = -f_interp` is the force derived from the energy derivative
`f_interp`, for every real-valued input. -/
theorem BBK_is_the_claimed_update (r v rp gv tv m : ℝ) (f : ℝ → ℝ) (dtv rpf : ℝ) :
    BBK r v rp gv tv m f dtv rpf =
      let F := fun s => -f s
      let a := (F r + rp) / m - gv * v
      let r1 := r + v * dtv + 0.5 * a * dtv ^ 2
      let a1 := (F r1 + rpf) / m
      let v1 := (v + 0.5 * (a + a1) * dtv) / (1 + 0.5 * gv * dtv)
      [r1, v1, rpf] := by
  simp only [BBK, neg_one_mul]

/-- C7: neither numerical recurrence has an error branch, bounds clamp or
divergence check: for every real-valued input the BBK update returns a
plain three-element list, and the Metropolis step returns either the
accept-update of the state or the state unchanged. -/
theorem no_error_branches (r v rp gv tv m : ℝ) (f : ℝ → ℝ) (dtv rpf : ℝ)
    (Esh : ℝ → ℝ) (T nrm unif : ℝ) (s : MCState) :
    (BBK r v rp gv tv m f dtv rpf).length = 3 ∧
    (mcStep Esh T nrm unif s =
        ⟨s.r_prev, s.num_accepted + 1, s.accepted.set s.num_accepted (s.r_prev + nrm)⟩ ∨
      mcStep Esh T nrm unif s = s) := by
  refine ⟨by simp [BBK], ?_⟩
  by_cases h : unif < mcP Esh T (s.r_prev + nrm) s.r_prev
  · left
    simp [mcStep, if_pos h]
  · right
    simp [mcStep, if_neg h]

theorem resultSeq_eq_bbkIterate (f : ℝ → ℝ) (r0 v0 rp0 : ℝ) (noise : ℕ → ℝ) (i : ℕ) :
    resultSeq f r0 v0 rp0 noise i = bbkIterate f r0 v0 rp0 noise (i + 1) := by
  induction i with
  | zero => rfl
  | succ n ih => simp [resultSeq, bbkIterate, ih]

/-- C3 (counterexample): the trajectory array does not record the `i`-fold
BBK iterate at index `i`: at index 1 with zero spline derivative, zero
noise, initial position 0, velocity 1 and perturbation 0, the recorded
position differs from the position after one BBK application (the loop
applies the update twice before its first write). -/
theorem trajectory_claim_counterexample :
    r_vs_t (fun _ => 0) 0 1 0 (fun _ => 0) 1 ≠
      (bbkIterate (fun _ => 0) 0 1 0 (fun _ => 0) 1).getD 0 0 := by
  simp only [r_vs_t, resultSeq, bbkIterate, bbkStep, BBK]
  norm_num [gamma, temperature, mu, mH, mF, dt]

/-- C3 (amended): index 0 of the trajectory arrays holds the initial
position and velocity, and for every `1 ≤ i` index `i` holds the position
and velocity obtained by applying the BBK update exactly `i + 1` times to
the initial state (the state after a single update is never recorded),
with `t_array i = i * dt`. -/
theorem trajectory_records_shifted_iterates (f : ℝ → ℝ) (r0 v0 rp0 : ℝ)
    (noise : ℕ → ℝ) (i : ℕ) (hi : 1 ≤ i) :
    r_vs_t f r0 v0 rp0 noise i = (bbkIterate f r0 v0 rp0 noise (i + 1)).getD 0 0 ∧
    v_vs_t f r0 v0 rp0 noise i = (bbkIterate f r0 v0 rp0 noise (i + 1)).getD 1 0 ∧
    r_vs_t f r0 v0 rp0 noise 0 = r0 ∧
    v_vs_t f r0 v0 rp0 noise 0 = v0 ∧
    t_array i = i * dt := by
  have hne : i ≠ 0 := by omega
  refine ⟨?_, ?_, by simp [r_vs_t], by simp [v_vs_t], ?_⟩
  · simp [r_vs_t, hne, resultSeq_eq_bbkIterate]
  · simp [v_vs_t, hne, resultSeq_eq_bbkIterate]
  · simp [t_array, hne]
    ring

theorem argminIdx_lt_length {α : Type} [LinearOrder α] (l : List α) (h : 0 < l.length) :
    argminIdx l < l.length := by
  induction l with
  | nil => simp at h
  | cons a t ih =>
    cases t with
    | nil => simp [argminIdx]
    | cons b t2 =>
      simp only [argminIdx]
      split
      · simp
      · have hlt := ih (by simp)
        simpa using Nat.succ_lt_succ hlt

theorem argminIdx_le {α : Type} [LinearOrder α] (l : List α) (d : α) (j : ℕ)
    (hj : j < l.length) : l.getD (argminIdx l) d ≤ l.getD j d := by
  induction l generalizing j with
  | nil => simp at hj
  | cons a t ih =>
    cases t with
    | nil =>
      have hj0 : j = 0 := by simpa using Nat.lt_one_iff.mp (by simpa using hj)
      subst hj0
      simp [argminIdx]
    | cons b t2 =>
      have hlt : argminIdx (b :: t2) < (b :: t2).length :=
        argminIdx_lt_length _ (by simp)
      have hbd : (b :: t2).getD (argminIdx (b :: t2)) b =
          (b :: t2).getD (argminIdx (b :: t2)) d := by
        rw [List.getD_eq_getElem _ _ hlt, List.getD_eq_getElem _ _ hlt]
      simp only [argminIdx]
      split
      · rename_i hcond
        cases j with
        | zero => simp
        | succ i =>
          have hi : i < (b :: t2).length := by simpa using hj
          rw [List.getD_cons_zero, List.getD_cons_succ]
          exact le_trans (le_trans hcond (le_of_eq hbd)) (ih i hi)
      · rename_i hcond
        push_neg at hcond
        cases j with
        | zero =>
          rw [List.getD_cons_succ, List.getD_cons_zero]
          exact le_of_lt (lt_of_le_of_lt (le_of_eq hbd.symm) hcond)
        | succ i =>
          have hi : i < (b :: t2).length := by simpa using hj
          rw [List.getD_cons_succ, List.getD_cons_succ]
          exact ih i hi

theorem countLE_eq_zero (x : List ℝ) (t : ℝ) (h : ∀ b ∈ x, t < b) : countLE x t = 0 := by
  induction x with
  | nil => rfl
  | cons a rest ih =>
    have ha : t < a := h a (by simp)
    simp only [countLE]
    rw [if_neg (not_le.mpr ha), ih (fun b hb => h b (by simp [hb]))]

theorem countLE_sorted (x : List ℝ) (hp : List.Pairwise (· < ·) x) (j : ℕ)
    (hj : j < x.length) : countLE x (x.getD j 0) = j + 1 := by
  induction x generalizing j with
  | nil => simp at hj
  | cons a rest ih =>
    rcases List.pairwise_cons.mp hp with ⟨ha, hrest⟩
    cases j with
    | zero =>
      simp only [List.getD_cons_zero, countLE]
      rw [if_pos le_rfl, countLE_eq_zero rest a ha]
    | succ i =>
      have hi : i < rest.length := by simpa using hj
      have hmem : rest.getD i 0 ∈ rest := by
        rw [List.getD_eq_getElem _ _ hi]
        exact List.getElem_mem _
      simp only [List.getD_cons_succ, countLE]
      rw [if_pos (le_of_lt (ha _ hmem)), ih hrest i hi]
      omega

theorem segIdx_knot (x : List ℝ) (hp : List.Pairwise (· < ·) x) (j : ℕ)
    (hj : j < x.length) : segIdx x (x.getD j 0) = min j (x.length - 2) := by
  rw [segIdx, countLE_sorted x hp j hj]
  simp

theorem splineEval_knot (x y : List ℝ) (hp : List.Pairwise (· < ·) x)
    (h2 : 2 ≤ x.length) (hlen : y.length = x.length) (j : ℕ) (hj : j < x.length) :
    splineEval x y (x.getD j 0) = y.getD j 0 := by
  rcases lt_or_ge (j + 1) x.length with hcase | hcase
  · have hseg : segIdx x (x.getD j 0) = j := by
      rw [segIdx_knot x hp j hj]
      exact Nat.min_eq_left (by omega)
    simp only [splineEval, hseg]
    ring
  · have hj1 : j = x.length - 1 := by omega
    have hseg : segIdx x (x.getD j 0) = x.length - 2 := by
      rw [segIdx_knot x hp j hj]
      exact Nat.min_eq_right (by omega)
    have hi1 : x.length - 2 + 1 = j := by omega
    have hlt : x.getD (x.length - 2) 0 < x.getD j 0 := by
      have hb2 : x.length - 2 < x.length := by omega
      rw [List.getD_eq_getElem _ _ hb2, List.getD_eq_getElem _ _ hj]
      exact (List.pairwise_iff_getElem.mp hp) _ _ hb2 hj (by omega)
    have hne : x.getD j 0 - x.getD (x.length - 2) 0 ≠ 0 :=
      sub_ne_zero.mpr hlt.ne'
    simp only [splineEval, hseg, hi1]
    set A := x.getD (x.length - 2) 0 with hA
    set B := x.getD j 0 with hB
    set yA := y.getD (x.length - 2) 0 with hyA
    set yB := y.getD j 0 with hyB
    set m1 := (moments x y).getD (x.length - 2) 0 with hm1
    set m2 := (moments x y).getD j 0 with hm2
    field_simp
    ring

theorem r_array_au_sorted : List.Pairwise (· < ·) r_array_au := by
  rw [← List.chain'_iff_pairwise]
  norm_num [r_array_au, r_array, List.chain'_cons]

theorem r_array_au_len : r_array_au.length = 24 := by
  norm_num [r_array_au, r_array]

theorem E_array_len : E_array.length = 24 := by
  norm_num [E_array]

/-- C5: the equilibrium geometry minimises the interpolated energy over
the 200-point fine grid: `Req_idx` indexes a least entry of `E_fine`,
`r_eq` is the corresponding grid point, and `k` is the second derivative
of the energy spline at `r_eq`. -/
theorem equilibrium_minimises_interpolated_energy (i : ℕ) (hi : i < E_fine.length) :
    E_fine.getD Req_idx 0 ≤ E_fine.getD i 0 ∧
    E_fine.length = 200 ∧
    r_eq = r_fine.getD Req_idx 0 ∧
    k = splineEvalD2 r_array_au E_array r_eq := by
  refine ⟨argminIdx_le E_fine 0 i hi, ?_, rfl, rfl⟩
  rw [E_fine, List.length_map, r_fine, linspace, List.length_map, List.length_range]

/-- Witness for the C5 theorem at the concrete grid index `i = 0`. -/
theorem equilibrium_minimises_interpolated_energy_witness :
    E_fine.getD Req_idx 0 ≤ E_fine.getD 0 0 ∧
    E_fine.length = 200 ∧
    r_eq = r_fine.getD Req_idx 0 ∧
    k = splineEvalD2 r_array_au E_array r_eq :=
  equilibrium_minimises_interpolated_energy 0
    (by rw [E_fine, List.length_map, r_fine, linspace, List.length_map, List.length_range]; omega)

/-- C8 (counterexample): the fitted curve does not pass the sample points
only approximately, as a smoothing spline would: at the first knot the
fitted energy surface reproduces the first sample energy exactly. -/
theorem spline_fit_is_exact_at_first_knot :
    E_spline (r_array_au.getD 0 0) = E_array.getD 0 0 :=
  splineEval_knot r_array_au E_array r_array_au_sorted
    (by rw [r_array_au_len]; omega) (by rw [r_array_au_len, E_array_len])
    0 (by rw [r_array_au_len]; omega)

/-- C8 (amended): the potential energy surface is fit by an interpolating
cubic spline (`InterpolatedUnivariateSpline`), which passes through each
of the 24 sample points exactly, as the word interpolation in Section 1
describes; it is not a smoothing spline. -/
theorem spline_interpolates_sample_points (j : ℕ) (hj : j < 24) :
    E_spline (r_array_au.getD j 0) = E_array.getD j 0 :=
  splineEval_knot r_array_au E_array r_array_au_sorted
    (by rw [r_array_au_len]; omega) (by rw [r_array_au_len, E_array_len])
    j (by rw [r_array_au_len]; omega)

/-- Witness for the amended C8 theorem at the concrete knot index `j = 5`. -/
theorem spline_interpolates_sample_points_witness :
    E_spline (r_array_au.getD 5 0) = E_array.getD 5 0 :=
  spline_interpolates_sample_points 5 (by norm_num)

theorem diffs_map_add (c : ℝ) (y : List ℝ) :
    diffs (y.map (fun a => a + c)) = diffs y := by
  induction y with
  | nil => rfl
  | cons a t ih =>
    cases t with
    | nil => rfl
    | cons b t2 =>
      simp only [List.map_cons, diffs] at ih ⊢
      rw [ih]
      ring_nf

theorem moments_map_add (c : ℝ) (x y : List ℝ) :
    moments x (y.map (fun a => a + c)) = moments x y := by
  simp only [moments, secondDiffs, slopes, diffs_map_add]

theorem getD_map_add (c : ℝ) (y : List ℝ) (i : ℕ) (hi : i < y.length) :
    (y.map (fun a => a + c)).getD i 0 = y.getD i 0 + c := by
  rw [List.getD_eq_getElem _ _ (by simpa using hi), List.getD_eq_getElem _ _ hi,
    List.getElem_map]

theorem splineEval_map_add (x y : List ℝ) (c t : ℝ)
    (h2 : 2 ≤ x.length) (hlen : y.length = x.length) :
    splineEval x (y.map (fun a => a + c)) t = splineEval x y t + c := by
  have hseg : segIdx x t ≤ x.length - 2 := min_le_right _ _
  have hi : segIdx x t < y.length := by omega
  have hi1 : segIdx x t + 1 < y.length := by omega
  simp only [splineEval]
  rw [getD_map_add _ _ _ hi, getD_map_add _ _ _ hi1, moments_map_add]
  ring

theorem E_spline_shifted_eq (t : ℝ) : E_spline_shifted t = E_spline t + 100 := by
  have h2 : 2 ≤ r_array_au.length := by norm_num [r_array_au, r_array]
  have hlen : E_array.length = r_array_au.length := by
    norm_num [E_array, r_array_au, r_array]
  exact splineEval_map_add r_array_au E_array 100 t h2 hlen

theorem mcP_shifted (T rt rp : ℝ) :
    mcP E_spline_shifted T rt rp = Real.exp (-(E_spline rt - E_spline rp) / T) := by
  rw [mcP, E_spline_shifted_eq, E_spline_shifted_eq, ← Real.exp_sub, div_sub_div_same]
  congr 1
  ring

/-- C4: the Metropolis acceptance probability is the Boltzmann weight of
the energy difference of the spline-interpolated energy, and a trial is
accepted exactly when the uniform draw is below it. -/
theorem acceptance_probability_is_boltzmann_weight (rt rp nrm unif : ℝ) (s : MCState) :
    mcP E_spline_shifted temperature rt rp =
      Real.exp (-(E_spline rt - E_spline rp) / temperature) ∧
    ((mcStep E_spline_shifted temperature nrm unif s).num_accepted = s.num_accepted + 1 ↔
      unif < mcP E_spline_shifted temperature (s.r_prev + nrm) s.r_prev) := by
  refine ⟨mcP_shifted _ _ _, ?_⟩
  by_cases h : unif < mcP E_spline_shifted temperature (s.r_prev + nrm) s.r_prev
  · rw [mcStep, if_pos h]
    exact iff_of_true rfl h
  · rw [mcStep, if_neg h]
    constructor
    · intro hfalse
      omega
    · intro hfalse
      exact absurd hfalse h

/-- C6: the spline fit through the shifted data `E_array + 100` on the
same knots equals `E_spline + 100` at every evaluation point, and
consequently the Metropolis acceptance ratio computed from the shifted
spline equals the ratio computed from the unshifted spline. -/
theorem shifted_spline_is_refinement (t T rt rp : ℝ) :
    E_spline_shifted t = E_spline t + 100 ∧
    mcP E_spline_shifted T rt rp =
      Real.exp (-E_spline rt / T) / Real.exp (-E_spline rp / T) := by
  refine ⟨E_spline_shifted_eq t, ?_⟩
  rw [mcP_shifted, ← Real.exp_sub, div_sub_div_same]
  congr 1
  ring

/-- C9: a downhill proposal is always accepted: when the interpolated
energy of the trial position is at most that of the previous position, the
acceptance probability is at least 1, so any uniform draw in `[0, 1)`
passes the acceptance test. -/
theorem downhill_proposals_always_accepted (rt rp unif : ℝ)
    (hE : E_spline rt ≤ E_spline rp) (h0 : 0 ≤ unif) (h1 : unif < 1) :
    1 ≤ mcP E_spline_shifted temperature rt rp ∧
    unif < mcP E_spline_shifted temperature rt rp := by
  have hT : (0 : ℝ) < temperature := by norm_num [temperature]
  have hz : 0 ≤ -(E_spline rt - E_spline rp) / temperature :=
    div_nonneg (by linarith) (le_of_lt hT)
  have hge : 1 ≤ mcP E_spline_shifted temperature rt rp := by
    rw [mcP_shifted]
    exact Real.one_le_exp hz
  exact ⟨hge, lt_of_lt_of_le h1 hge⟩

/-- Witness for the C9 theorem at the concrete input `rt = rp = 0`,
`unif = 1/2`. -/
theorem downhill_proposals_always_accepted_witness :
    1 ≤ mcP E_spline_shifted temperature 0 0 ∧
    (1 : ℝ) / 2 < mcP E_spline_shifted temperature 0 0 :=
  downhill_proposals_always_accepted 0 0 (1 / 2) le_rfl (by norm_num) (by norm_num)

theorem replicate_zero_set_zero (n : ℕ) (hn : 0 < n) (v : ℝ) :
    (List.replicate n (0 : ℝ)).set 0 v = v :: List.replicate (n - 1) 0 := by
  cases n with
  | zero => omega
  | succ m => simp [List.replicate_succ]

theorem replicate_zero_getD (n j : ℕ) : (List.replicate n (0 : ℝ)).getD j 0 = 0 := by
  rcases lt_or_ge j n with h | h
  · rw [List.getD_eq_getElem _ _ (by simpa using h)]
    simp
  · exact List.getD_eq_default _ _ (by simpa using h)

/-- C1 (code bug): the Monte-Carlo loop never updates the current state of
the chain.  With constant-zero energy, proposal perturbations equal to 1
and uniform draws equal to 1/2, the first proposal (position `0 + 1`) is
accepted, yet the position from which the next proposal is perturbed is
still the initial position `0` and not the accepted position. -/
theorem metropolis_chain_never_moves :
    (mcRun (fun _ => 0) 1 (fun _ => 1) (fun _ => 1 / 2) 0 1).num_accepted = 1 ∧
    (mcRun (fun _ => 0) 1 (fun _ => 1) (fun _ => 1 / 2) 0 1).accepted.getD 0 0 = 0 + 1 ∧
    (mcRun (fun _ => 0) 1 (fun _ => 1) (fun _ => 1 / 2) 0 1).r_prev = 0 ∧
    (mcRun (fun _ => 0) 1 (fun _ => 1) (fun _ => 1 / 2) 0 1).r_prev ≠
      (mcRun (fun _ => 0) 1 (fun _ => 1) (fun _ => 1 / 2) 0 1).accepted.getD 0 0 := by
  have hp : mcP (fun _ => (0 : ℝ)) 1 ((0 : ℝ) + 1) 0 = 1 := by simp [mcP]
  have h1 : mcRun (fun _ => 0) 1 (fun _ => 1) (fun _ => 1 / 2) 0 1 =
      ⟨0, 1, (List.replicate N_updates (0 : ℝ)).set 0 (0 + 1)⟩ := by
    simp only [mcRun, mcStep]
    rw [hp]
    norm_num
  have hN : 0 < N_updates := by norm_num [N_updates]
  rw [h1]
  refine ⟨rfl, ?_, rfl, ?_⟩
  · show ((List.replicate N_updates (0 : ℝ)).set 0 (0 + 1)).getD 0 0 = 0 + 1
    rw [replicate_zero_set_zero _ hN, List.getD_cons_zero]
  · show (0 : ℝ) ≠ ((List.replicate N_updates (0 : ℝ)).set 0 (0 + 1)).getD 0 0
    rw [replicate_zero_set_zero _ hN, List.getD_cons_zero]
    norm_num

theorem mcRun_invariant (Esh : ℝ → ℝ) (T : ℝ) (normals uniforms : ℕ → ℝ)
    (r0 : ℝ) (i : ℕ) (hi : i ≤ N_updates) :
    (mcRun Esh T normals uniforms r0 i).num_accepted ≤ i ∧
    (acceptedTrials Esh T normals uniforms r0 i).length =
      (mcRun Esh T normals uniforms r0 i).num_accepted ∧
    (mcRun Esh T normals uniforms r0 i).accepted =
      acceptedTrials Esh T normals uniforms r0 i ++
        List.replicate (N_updates - (mcRun Esh T normals uniforms r0 i).num_accepted) 0 := by
  induction i with
  | zero => simp [mcRun, acceptedTrials]
  | succ n ih =>
    obtain ⟨h1, h2, h3⟩ := ih (Nat.le_of_succ_le hi)
    have hnum : (mcRun Esh T normals uniforms r0 n).num_accepted < N_updates := by omega
    simp only [mcRun, mcStep, acceptedTrials]
    by_cases hc : uniforms n <
        mcP Esh T ((mcRun Esh T normals uniforms r0 n).r_prev + normals n)
          (mcRun Esh T normals uniforms r0 n).r_prev
    · rw [if_pos hc, if_pos hc]
      dsimp only
      refine ⟨by omega, by simp [h2], ?_⟩
      rw [h3, List.set_append_right _ _ (le_of_eq h2)]
      rw [h2, Nat.sub_self, replicate_zero_set_zero _ (by omega)]
      rw [show N_updates - (mcRun Esh T normals uniforms r0 n).num_accepted - 1 =
        N_updates - ((mcRun Esh T normals uniforms r0 n).num_accepted + 1) from by omega]
      rw [List.append_assoc, List.singleton_append]
    · rw [if_neg hc, if_neg hc]
      exact ⟨by omega, h2, h3⟩

/-- C10: bookkeeping of accepted samples is consistent.  After `i ≤
N_updates` iterations of the Monte-Carlo loop: the number of accepted
samples is at most `i` (hence at most `N_updates`), the accepted array
keeps length `N_updates`, so before every iteration the write index
`num_accepted_r` is strictly within bounds, entries at indices
`num_accepted_r` and above are still zero, the first `num_accepted_r`
entries are exactly the accepted trial positions in order, and the final
mean `r_av_mc` is the sum of the accepted positions divided by their
number. -/
theorem mc_bookkeeping (normals uniforms : ℕ → ℝ) (r0 : ℝ) (i : ℕ)
    (hi : i ≤ N_updates) :
    (mcRun E_spline_shifted temperature normals uniforms r0 i).num_accepted ≤ i ∧
    (mcRun E_spline_shifted temperature normals uniforms r0 i).num_accepted ≤ N_updates ∧
    (mcRun E_spline_shifted temperature normals uniforms r0 i).accepted.length = N_updates ∧
    (i < N_updates →
      (mcRun E_spline_shifted temperature normals uniforms r0 i).num_accepted <
        (mcRun E_spline_shifted temperature normals uniforms r0 i).accepted.length) ∧
    (∀ j, (mcRun E_spline_shifted temperature normals uniforms r0 i).num_accepted ≤ j →
      (mcRun E_spline_shifted temperature normals uniforms r0 i).accepted.getD j 0 = 0) ∧
    (mcRun E_spline_shifted temperature normals uniforms r0 i).accepted.take
        (mcRun E_spline_shifted temperature normals uniforms r0 i).num_accepted =
      acceptedTrials E_spline_shifted temperature normals uniforms r0 i ∧
    r_av_mc normals uniforms r0 =
      (acceptedTrials E_spline_shifted temperature normals uniforms r0 N_updates).sum /
        (acceptedTrials E_spline_shifted temperature normals uniforms r0 N_updates).length := by
  obtain ⟨h1, h2, h3⟩ :=
    mcRun_invariant E_spline_shifted temperature normals uniforms r0 i hi
  have hlen : (mcRun E_spline_shifted temperature normals uniforms r0 i).accepted.length
      = N_updates := by
    rw [h3]
    simp [h2]
    omega
  refine ⟨h1, by omega, hlen, fun h => by omega, ?_, ?_, ?_⟩
  · intro j hj
    rw [h3, List.getD_append_right _ _ _ _ (by omega), replicate_zero_getD]
  · rw [h3, List.take_append_of_le_length (le_of_eq h2.symm), ← h2, List.take_length]
  · obtain ⟨g1, g2, g3⟩ :=
      mcRun_invariant E_spline_shifted temperature normals uniforms r0 N_updates le_rfl
    show (_ / _ : ℝ) = _
    rw [g3, List.take_append_of_le_length (le_of_eq g2.symm), ← g2, List.take_length]

/-- Witness for the C10 bookkeeping theorem at the concrete input of zero
streams, initial position 0 and `i = 0`. -/
theorem mc_bookkeeping_witness :
    (mcRun E_spline_shifted temperature (fun _ => 0) (fun _ => 0) 0 0).num_accepted ≤ 0 ∧
    (mcRun E_spline_shifted temperature (fun _ => 0) (fun _ => 0) 0 0).num_accepted ≤ N_updates ∧
    (mcRun E_spline_shifted temperature (fun _ => 0) (fun _ => 0) 0 0).accepted.length = N_updates ∧
    (0 < N_updates →
      (mcRun E_spline_shifted temperature (fun _ => 0) (fun _ => 0) 0 0).num_accepted <
        (mcRun E_spline_shifted temperature (fun _ => 0) (fun _ => 0) 0 0).accepted.length) ∧
    (∀ j, (mcRun E_spline_shifted temperature (fun _ => 0) (fun _ => 0) 0 0).num_accepted ≤ j →
      (mcRun E_spline_shifted temperature (fun _ => 0) (fun _ => 0) 0 0).accepted.getD j 0 = 0) ∧
    (mcRun E_spline_shifted temperature (fun _ => 0) (fun _ => 0) 0 0).accepted.take
        (mcRun E_spline_shifted temperature (fun _ => 0) (fun _ => 0) 0 0).num_accepted =
      acceptedTrials E_spline_shifted temperature (fun _ => 0) (fun _ => 0) 0 0 ∧
    r_av_mc (fun _ => 0) (fun _ => 0) 0 =
      (acceptedTrials E_spline_shifted temperature (fun _ => 0) (fun _ => 0) 0 N_updates).sum /
        (acceptedTrials E_spline_shifted temperature (fun _ => 0) (fun _ => 0) 0 N_updates).length :=
  mc_bookkeeping (fun _ => 0) (fun _ => 0) 0 0 (Nat.zero_le _)

/-- Witness for the amended C3 theorem at the concrete input `f = 0`,
`r0 = 0`, `v0 = 1`, `rp0 = 0`, zero noise, `i = 1`. -/
theorem trajectory_records_shifted_iterates_witness :
    r_vs_t (fun _ => 0) 0 1 0 (fun _ => 0) 1 =
      (bbkIterate (fun _ => 0) 0 1 0 (fun _ => 0) (1 + 1)).getD 0 0 ∧
    v_vs_t (fun _ => 0) 0 1 0 (fun _ => 0) 1 =
      (bbkIterate (fun _ => 0) 0 1 0 (fun _ => 0) (1 + 1)).getD 1 0 ∧
    r_vs_t (fun _ => 0) 0 1 0 (fun _ => 0) 0 = 0 ∧
    v_vs_t (fun _ => 0) 0 1 0 (fun _ => 0) 0 = 1 ∧
    t_array 1 = ((1 : ℕ) : ℝ) * dt :=
  trajectory_records_shifted_iterates (fun _ => 0) 0 1 0 (fun _ => 0) 1 (by norm_num)
